import Mathlib

/-!
# NFT indexer: the query cache of `src/App.jsx`

A shallow embedding of the `App` component of `src/App.jsx`: its React state,
the async function `getNFTsForOwner`, the `setQueries` updater that stores a
fetched result, and the parts of the render that read the state.

Modelling decisions.

* The React state is a record.  A call of `getNFTsForOwner` reads `userAddress`
  and `queries` from the render whose closure it is, and its setters act on the
  current state; it is a function from these two states, the argument and the
  answers of the indexing client to the next state and the list of external
  effects (client calls, `console.log`, `alert`).
* The fetch button and the links of the recent queries call the closure of the
  current render.  The wallet effect has the dependency list `[alchemy]`: the
  `connectWallet` that can reach `getNFTsForOwner` is the one started in the
  render in which `alchemy` was first set, and it calls the closure of that
  render, whose `userAddress` and `queries` are the initial ones, whenever the
  wallet answers.
* `queries` is a JavaScript object created by `useState({})`.  It is modelled
  as its own data properties in creation order, with the three language rules
  the code relies on: `queries[k]` falls back to `Object.prototype` when `k` is
  not an own property, `Object.keys` lists array-index keys first in ascending
  numeric order and then the other keys in creation order, and an object
  literal `{[k]: v, ...o}` defines `k` first and then copies the own
  properties of `o` over it.
* `Promise.all` stores each fulfilment value at the index of its promise and
  rejects with the first rejection in settle order; the settle order is an
  input of the model.
* The indexing client is present (the mount effect has run `setAlchemy`), its
  answers are arbitrary, and every request settles.  A call starts after the
  previous one has completed and the component has rendered again; calls that
  overlap in time are outside the model.
-/

namespace NftIndexer

/-! ## Data returned by the indexing client -/

/-- One record of `data.ownedNfts`; `getNFTsForOwner` reads `contract.address`
and `tokenId` of it. -/
structure OwnedNft where
  contractAddress : String
  tokenId : String
deriving DecidableEq, Repr

/-- The value `data` that `alchemy.nft.getNftsForOwner` resolves to. -/
structure OwnedNftsResponse where
  ownedNfts : List OwnedNft
deriving DecidableEq, Repr

/-- The value that `alchemy.nft.getNftMetadata` resolves to; the render reads
`title` and `rawMetadata.image` of it. -/
structure Nft where
  title : String
  image : Option String
deriving DecidableEq, Repr

/-- The object `{ data, tokenDataObjects }` stored under an address. -/
structure QueryResult where
  data : OwnedNftsResponse
  tokenDataObjects : List Nft
deriving DecidableEq, Repr

/-! ## JavaScript objects used as maps -/

/-- An ordinary object: its own data properties in creation order. -/
structure JSObject (V : Type) where
  props : List (String × V)
deriving DecidableEq, Repr

/-- The value of a decimal digit character. -/
def digitValue (c : Char) : Option Nat :=
  if 48 ≤ c.toNat ∧ c.toNat ≤ 57 then some (c.toNat - 48) else none

/-- The number written by a list of decimal digits. -/
def decimalValue (cs : List Char) : Option Nat :=
  cs.foldl
    (fun acc c =>
      match acc, digitValue c with
      | some n, some d => some (10 * n + d)
      | _, _ => none)
    (some 0)

/-- A property key is an array index when it is the canonical decimal form of
an integer in `0 .. 2^32 - 2`. -/
def arrayIndex? (key : String) : Option Nat :=
  match key.data with
  | [] => none
  | [c] => digitValue c
  | c :: cs =>
    if c = '0' then none
    else
      match decimalValue (c :: cs) with
      | some n => if n < 2 ^ 32 - 1 then some n else none
      | none => none

/-- Insertion into a list kept in ascending numeric order. -/
def insertAscending (k : Nat × String) : List (Nat × String) → List (Nat × String)
  | [] => [k]
  | x :: xs => if k.1 ≤ x.1 then k :: x :: xs else x :: insertAscending k xs

/-- The names of the Object.prototype properties every ordinary object
inherits. -/
def objectPrototypeKeys : List String :=
  ["constructor", "__defineGetter__", "__defineSetter__", "hasOwnProperty",
   "__lookupGetter__", "__lookupSetter__", "isPrototypeOf",
   "propertyIsEnumerable", "toString", "valueOf", "__proto__", "toLocaleString"]

/-- The value of a property read `queries[key]`. -/
inductive PropertyValue where
  | undefined
  | entry (r : QueryResult)
  | inherited (name : String)
deriving DecidableEq, Repr

namespace JSObject

variable {V : Type}

/-- The object literal with no properties. -/
def empty : JSObject V := ⟨[]⟩

/-- The value of the own property `key`, when there is one. -/
def getOwn (o : JSObject V) (key : String) : Option V :=
  o.props.lookup key

/-- Defining a data property on a property list: the value of an existing key
is replaced where it stands, a new key goes last. -/
def setProp (key : String) (v : V) : List (String × V) → List (String × V)
  | [] => [(key, v)]
  | p :: ps => if p.1 = key then (p.1, v) :: ps else p :: setProp key v ps

/-- CreateDataProperty. -/
def set (o : JSObject V) (key : String) (v : V) : JSObject V :=
  ⟨setProp key v o.props⟩

/-- The list `Object.keys(o)`: array indices in ascending order, then the
other keys in creation order. -/
def ownKeys (o : JSObject V) : List String :=
  let names := o.props.map Prod.fst
  let indices := names.filterMap (fun k => (arrayIndex? k).map (fun n => (n, k)))
  (indices.foldr insertAscending []).map Prod.snd
    ++ names.filter (fun k => (arrayIndex? k).isNone)

/-- One step of CopyDataProperties: the own property `key` of `source` is
defined on the object under construction. -/
def copyProp (source o : JSObject V) (key : String) : JSObject V :=
  match source.getOwn key with
  | some v => o.set key v
  | none => o

/-- The spread `...source` inside an object literal: every own property of
`source`, in the order of its keys, is defined on the object under
construction. -/
def spread (target source : JSObject V) : JSObject V :=
  source.ownKeys.foldl (copyProp source) target

end JSObject

/-- The property read `queries[key]`: an own property, else a property
inherited from Object.prototype, else `undefined`. -/
def lookup (queries : JSObject QueryResult) (key : String) : PropertyValue :=
  match queries.getOwn key with
  | some r => .entry r
  | none => if key ∈ objectPrototypeKeys then .inherited key else .undefined

/-- Truthiness of a property value: only `undefined` is falsy here. -/
def PropertyValue.truthy : PropertyValue → Bool
  | .undefined => false
  | .entry _ => true
  | .inherited _ => true

/-- The updater passed to `setQueries`:
`queries => ({ [_address]: { data, tokenDataObjects }, ...queries })`. -/
def store (queries : JSObject QueryResult) (_address : String)
    (data : OwnedNftsResponse) (tokenDataObjects : List Nft) : JSObject QueryResult :=
  JSObject.spread (JSObject.empty.set _address ⟨data, tokenDataObjects⟩) queries

/-! ## `Promise.all` -/

/-- The record `Promise.all` keeps while its promises settle. -/
structure AllState (ε α : Type) where
  values : List (Option α)
  rejected : Option ε

/-- The promise at `index` settles: a fulfilment value is stored at `index`, a
rejection is kept when it is the first one. -/
def settleElement {ε α : Type} (ps : List (Except ε α)) (st : AllState ε α)
    (index : Nat) : AllState ε α :=
  match ps[index]? with
  | none => st
  | some (.error e) =>
    match st.rejected with
    | none => { st with rejected := some e }
    | some _ => st
  | some (.ok x) => { st with values := st.values.set index (some x) }

/-- The order in which `n` promises settle, from a hint: the promises the hint
names settle first, in the order of the hint, the others after them in index
order.  Every promise settles exactly once. -/
def settleOrder (n : Nat) (hint : List Nat) : List Nat :=
  (hint.filter (fun i => decide (i < n))).dedup
    ++ (List.range n).filter (fun i => decide (i ∉ hint))

/-- The outcome of `await Promise.all(ps)` when the promises settle in the
order given by `hint`. -/
def promiseAll {ε α : Type} (ps : List (Except ε α)) (hint : List Nat) :
    Except ε (List α) :=
  let final := (settleOrder ps.length hint).foldl (settleElement ps)
    ⟨List.replicate ps.length none, none⟩
  match final.rejected with
  | some e => .error e
  | none => .ok (final.values.filterMap id)

/-! ## The component state -/

/-- The value of the state variable `results`: the initial `[]`, a response of
the client, or `undefined`. -/
inductive ResultsValue where
  | emptyArray
  | response (data : OwnedNftsResponse)
  | undefined
deriving DecidableEq, Repr

/-- The value of the state variable `tokenDataObjects`. -/
inductive TokenDataValue where
  | array (xs : List Nft)
  | undefined
deriving DecidableEq, Repr

/-- The property read `cachedQuery.data`. -/
def PropertyValue.data : PropertyValue → ResultsValue
  | .entry r => .response r.data
  | _ => .undefined

/-- The property read `cachedQuery.tokenDataObjects`. -/
def PropertyValue.tokenDataObjects : PropertyValue → TokenDataValue
  | .entry r => .array r.tokenDataObjects
  | _ => .undefined

/-- The state variables of `App` that `getNFTsForOwner` reads or writes. -/
structure State where
  userAddress : String
  results : ResultsValue
  hasQueried : Bool
  queries : JSObject QueryResult
  tokenDataObjects : TokenDataValue
  loading : Bool
deriving DecidableEq, Repr

/-- The initial values given to `useState`. -/
def initialState : State :=
  { userAddress := "", results := .emptyArray, hasQueried := false,
    queries := JSObject.empty, tokenDataObjects := .array [], loading := false }

/-- The answers of the indexing client during one call: the token list for an
address, the metadata for the `i`-th call of `getNftMetadata`, and the order in
which the metadata promises settle. -/
structure Net where
  getNftsForOwner : String → Except String OwnedNftsResponse
  getNftMetadata : Nat → String → String → Except String Nft
  settleHint : List Nat

/-- What a call does outside the component state. -/
inductive Effect where
  | getNftsForOwner (address : String)
  | getNftMetadata (contractAddress tokenId : String)
  | consoleLog (error : String)
  | alert (message : String)
deriving DecidableEq, Repr

/-- The text of the alert in the `catch` block. -/
def failureMessage : String := "Failed to check ERC-721 tokens."

/-- The expression `address || userAddress`. -/
def effectiveAddress (address : Option String) (userAddress : String) : String :=
  match address with
  | some a => if a = "" then userAddress else a
  | none => userAddress

/-- The loop that issues one `getNftMetadata` per owned token and collects the
promises, paired with the calls it makes. -/
def tokenDataPromises (net : Net) (data : OwnedNftsResponse) :
    List (Except String Nft) :=
  data.ownedNfts.enum.map (fun p => net.getNftMetadata p.1 p.2.contractAddress p.2.tokenId)

/-- The client calls made by the loop of `tokenDataPromises`. -/
def metadataCalls (data : OwnedNftsResponse) : List Effect :=
  data.ownedNfts.map (fun t => Effect.getNftMetadata t.contractAddress t.tokenId)

/-- The async function `getNFTsForOwner(address)`, run to completion.

`closure` is the state of the render whose `getNFTsForOwner` is called: the
function reads `userAddress` and `queries` from it.  `s` is the current state:
the setters replace its fields, and the updater passed to `setQueries` is
applied to its cache. -/
def getNFTsForOwner (closure s : State) (address : Option String) (net : Net) :
    State × List Effect :=
  let _address := effectiveAddress address closure.userAddress
  let cachedQuery := lookup closure.queries _address
  if _address = "" then
    ({ s with hasQueried := false }, [])
  else if cachedQuery.truthy then
    ({ s with results := cachedQuery.data,
              tokenDataObjects := cachedQuery.tokenDataObjects,
              hasQueried := true }, [])
  else
    match net.getNftsForOwner _address with
    | .error e =>
      ({ s with loading := false },
        [.getNftsForOwner _address, .consoleLog e, .alert failureMessage])
    | .ok data =>
      match promiseAll (tokenDataPromises net data) net.settleHint with
      | .error e =>
        ({ s with results := .response data, loading := false },
          .getNftsForOwner _address :: metadataCalls data
            ++ [.consoleLog e, .alert failureMessage])
      | .ok tokenDataObjects =>
        ({ s with results := .response data,
                  queries := store s.queries _address data tokenDataObjects,
                  tokenDataObjects := .array tokenDataObjects,
                  hasQueried := true,
                  loading := false },
          .getNftsForOwner _address :: metadataCalls data)

/-- What the user or the wallet effect does to the component.

* `setUserAddress`: the `onChange` of the input.
* `getNFTsForOwner`: a call made from the current render, by the fetch button
  (no argument) or, after `setUserAddress`, by a link of the recent queries
  (`handleCachedQuery`).
* `connectWallet`: the wallet answers with `address`, and the pending
  `connectWallet` of the wallet effect runs `setUserAddress(address)` and the
  `getNFTsForOwner(address)` of the render in which the effect ran. -/
inductive Action where
  | setUserAddress (value : String)
  | getNFTsForOwner (address : Option String) (net : Net)
  | connectWallet (address : String) (net : Net)

/-- The actions whose call of `getNFTsForOwner` is the closure of the current
render: all but the call made by the wallet effect. -/
def Action.fromCurrentRender : Action → Bool
  | .connectWallet _ _ => false
  | _ => true

/-- One action on the component.  A call made from the current render reads and
writes the current state.  The call made by the wallet effect, guarded by
`if (address && alchemy)`, first sets `userAddress` and then runs the
`getNFTsForOwner` of the render in which the effect ran: it reads the initial
`queries` and `userAddress` and writes the current state. -/
def step (s : State) : Action → State × List Effect
  | .setUserAddress value => ({ s with userAddress := value }, [])
  | .getNFTsForOwner address net => getNFTsForOwner s s address net
  | .connectWallet address net =>
    if address = "" then (s, [])
    else getNFTsForOwner initialState { s with userAddress := address } (some address) net

/-- A sequence of actions, each completed before the next starts; the state an
action writes is the one the previous action left, the state it reads is the
one of the render whose closure it calls (see `step`). -/
def run (s : State) : List Action → State × List Effect
  | [] => (s, [])
  | a :: rest =>
    let r1 := step s a
    let r2 := run r1.1 rest
    (r2.1, r1.2 ++ r2.2)

/-- The states the component can be in after some sequence of actions. -/
def Reachable (s : State) : Prop :=
  ∃ actions : List Action, (run initialState actions).1 = s

/-- The grid of the render: `none` is the placeholder text shown while
`hasQueried` is false; otherwise `results.ownedNfts.map` pairs the token at
index `i` with `tokenDataObjects[i]`, and reading a property of `undefined`
throws. -/
def grid (s : State) : Except String (Option (List (OwnedNft × Option Nft))) :=
  if s.hasQueried then
    match s.results with
    | .undefined => .error "TypeError"
    | .emptyArray => .error "TypeError"
    | .response data =>
      match s.tokenDataObjects with
      | .undefined =>
        if data.ownedNfts = [] then .ok (some []) else .error "TypeError"
      | .array xs =>
        .ok (some (data.ownedNfts.enum.map (fun p => (p.2, xs[p.1]?))))
  else .ok none

/-- The addresses listed under "Recent queries": `Object.keys(queries)`. -/
def recentQueries (s : State) : List String := s.queries.ownKeys

/-! ## Predicates used in the statements -/

/-- The five ways a call of `getNFTsForOwner` can go: what it reads comes from
`closure`, what it writes goes to `s`. -/
inductive Outcome (closure s : State) (address : Option String) (net : Net) :
    State × List Effect → Prop where
  | noQuery (h : effectiveAddress address closure.userAddress = "") :
      Outcome closure s address net ({ s with hasQueried := false }, [])
  | hit (h : effectiveAddress address closure.userAddress ≠ "")
      (ht : (lookup closure.queries (effectiveAddress address closure.userAddress)).truthy = true) :
      Outcome closure s address net
        ({ s with
            results := (lookup closure.queries (effectiveAddress address closure.userAddress)).data,
            tokenDataObjects :=
              (lookup closure.queries
                (effectiveAddress address closure.userAddress)).tokenDataObjects,
            hasQueried := true }, [])
  | listFailed (h : effectiveAddress address closure.userAddress ≠ "")
      (ht : (lookup closure.queries (effectiveAddress address closure.userAddress)).truthy = false)
      (e : String)
      (hl : net.getNftsForOwner (effectiveAddress address closure.userAddress) = .error e) :
      Outcome closure s address net
        ({ s with loading := false },
          [.getNftsForOwner (effectiveAddress address closure.userAddress), .consoleLog e,
            .alert failureMessage])
  | metadataFailed (h : effectiveAddress address closure.userAddress ≠ "")
      (ht : (lookup closure.queries (effectiveAddress address closure.userAddress)).truthy = false)
      (data : OwnedNftsResponse) (e : String)
      (hl : net.getNftsForOwner (effectiveAddress address closure.userAddress) = .ok data)
      (hm : promiseAll (tokenDataPromises net data) net.settleHint = .error e) :
      Outcome closure s address net
        ({ s with results := .response data, loading := false },
          .getNftsForOwner (effectiveAddress address closure.userAddress) :: metadataCalls data
            ++ [.consoleLog e, .alert failureMessage])
  | stored (h : effectiveAddress address closure.userAddress ≠ "")
      (ht : (lookup closure.queries (effectiveAddress address closure.userAddress)).truthy = false)
      (data : OwnedNftsResponse) (tdo : List Nft)
      (hl : net.getNftsForOwner (effectiveAddress address closure.userAddress) = .ok data)
      (hm : promiseAll (tokenDataPromises net data) net.settleHint = .ok tdo) :
      Outcome closure s address net
        ({ s with
            results := .response data,
            queries := store s.queries (effectiveAddress address closure.userAddress) data tdo,
            tokenDataObjects := .array tdo,
            hasQueried := true,
            loading := false },
          .getNftsForOwner (effectiveAddress address closure.userAddress) :: metadataCalls data)

/-- The number of `alchemy.nft.getNftsForOwner` calls made for `address`. -/
def fetchCount (address : String) (effects : List Effect) : Nat :=
  effects.count (Effect.getNftsForOwner address)

/-- The number of failure alerts raised. -/
def alertCount (effects : List Effect) : Nat :=
  effects.count (Effect.alert failureMessage)

/-- The number of token-list requests made, for any address. -/
def tokenListFetches (effects : List Effect) : Nat :=
  effects.countP (fun e => match e with
    | .getNftsForOwner _ => true
    | _ => false)

/-- The number of token-list requests still to be expected for `address` when
nothing fails: one while the address has no cache entry, none afterwards. -/
def unfetched (address : String) (queries : JSObject QueryResult) : Nat :=
  if (queries.getOwn address).isSome then 0 else 1

/-- The entry `r` is what the client `net` answers for `address`: its token
list is the answer of `getNftsForOwner`, and its metadata at index `i` is the
answer of the `i`-th `getNftMetadata` call, made with the contract address and
the token id of the token at index `i`. -/
def AlignedWith (net : Net) (address : String) (r : QueryResult) : Prop :=
  net.getNftsForOwner address = .ok r.data
    ∧ r.tokenDataObjects.length = r.data.ownedNfts.length
    ∧ ∀ (i : Nat) (t : OwnedNft), r.data.ownedNfts[i]? = some t →
        ∃ m, r.tokenDataObjects[i]? = some m
          ∧ net.getNftMetadata i t.contractAddress t.tokenId = .ok m

/-- A cache is well formed when no key occurs twice among its properties. -/
def WellFormed (queries : JSObject QueryResult) : Prop :=
  (queries.props.map Prod.fst).Nodup

/-! ## Concrete data used in the examples -/

def nftA : OwnedNft := ⟨"0xc0ffee", "1"⟩
def nftB : OwnedNft := ⟨"0xc0ffee", "2"⟩
def nftC : OwnedNft := ⟨"0xdecaf", "7"⟩
def metaA : Nft := ⟨"Alpha", some "ipfs://a"⟩
def metaB : Nft := ⟨"Beta", none⟩
def metaC : Nft := ⟨"Gamma", some "ipfs://c"⟩

/-- A client that answers every request: one token for the address "0xB", two
tokens for any other address. -/
def netOk : Net where
  getNftsForOwner := fun a => if a = "0xB" then .ok ⟨[nftC]⟩ else .ok ⟨[nftA, nftB]⟩
  getNftMetadata := fun _ _ tokenId =>
    if tokenId = "1" then .ok metaA else if tokenId = "2" then .ok metaB else .ok metaC
  settleHint := [1, 0]

/-- A client whose token-list request fails. -/
def netListFails : Net where
  getNftsForOwner := fun _ => .error "network"
  getNftMetadata := fun _ _ _ => .ok metaA
  settleHint := []

/-- A client whose metadata request for the token at index 1 fails. -/
def netMetadataFails : Net where
  getNftsForOwner := fun _ => .ok ⟨[nftA, nftB]⟩
  getNftMetadata := fun i _ _ => if i = 1 then .error "metadata" else .ok metaA
  settleHint := []

/-- A client that answers one token for every address: what the chain holds at
a later time. -/
def netLater : Net where
  getNftsForOwner := fun _ => .ok ⟨[nftC]⟩
  getNftMetadata := fun _ _ _ => .ok metaC
  settleHint := []

/-- The cache after a successful query of "0xB": one entry. -/
def stateAfterB : State :=
  (getNFTsForOwner initialState initialState (some "0xB") netOk).1

/-- A cache that already holds an entry for "0xA". -/
def cacheWithA : JSObject QueryResult := ⟨[("0xA", ⟨⟨[nftC]⟩, [metaC]⟩)]⟩

/-- The state after the user types "constructor" into the address field and
presses the fetch button, starting from the initial state. -/
def stateAfterConstructor : State :=
  (run initialState [.setUserAddress "constructor", .getNFTsForOwner none netOk]).1

/-- The state after a successful query of "0xB" followed by a query of "0xA"
whose second metadata request fails. -/
def stateAfterFailedMetadata : State :=
  (run initialState
    [.getNFTsForOwner (some "0xB") netOk, .getNFTsForOwner (some "0xA") netMetadataFails]).1

/-- The state after the user types "0xA" and presses the fetch button: the cache
holds a two-token entry for "0xA". -/
def stateAfterA : State :=
  (run initialState [.setUserAddress "0xA", .getNFTsForOwner none netOk]).1

/-- The user types "0xA" and presses the fetch button while the wallet prompt is
open; then the wallet answers with the account "0xA". -/
def walletAfterUserQuery : List Action :=
  [.setUserAddress "0xA", .getNFTsForOwner none netOk, .connectWallet "0xA" netLater]

/-- A cache whose only key is the array index "7". -/
def cacheWithSeven : JSObject QueryResult := ⟨[("7", ⟨⟨[nftC]⟩, [metaC]⟩)]⟩

/-! ## Own properties -/

namespace JSObject

variable {V : Type}

theorem lookup_setProp (key : String) (v : V) (k : String) (ps : List (String × V)) :
    (setProp key v ps).lookup k = if k = key then some v else ps.lookup k := by
  induction ps with
  | nil =>
    by_cases h : k = key
    · simp [setProp, List.lookup, h]
    · have : (k == key) = false := by simpa using h
      simp [setProp, List.lookup, h, this]
  | cons p ps ih =>
    obtain ⟨pk, pv⟩ := p
    by_cases hp : pk = key
    · subst hp
      by_cases h : k = pk
      · simp [setProp, List.lookup, h]
      · have : (k == pk) = false := by simpa using h
        simp [setProp, List.lookup, h, this]
    · by_cases h : k = pk
      · subst h
        have hk : ¬ k = key := hp
        simp [setProp, List.lookup, hp]
      · have : (k == pk) = false := by simpa using h
        simp [setProp, List.lookup, hp, this, ih]

theorem getOwn_set (o : JSObject V) (key : String) (v : V) (k : String) :
    (o.set key v).getOwn k = if k = key then some v else o.getOwn k :=
  lookup_setProp key v k o.props

theorem getOwn_empty (k : String) : (empty : JSObject V).getOwn k = none := rfl

theorem lookup_isSome_iff (k : String) (ps : List (String × V)) :
    (ps.lookup k).isSome ↔ k ∈ ps.map Prod.fst := by
  induction ps with
  | nil => simp [List.lookup]
  | cons p ps ih =>
    obtain ⟨pk, pv⟩ := p
    by_cases h : k = pk
    · simp [List.lookup, h]
    · have : (k == pk) = false := by simpa using h
      simp [List.lookup, this, ih, h]

theorem mem_insertAscending (k x : Nat × String) (xs : List (Nat × String)) :
    x ∈ insertAscending k xs ↔ x = k ∨ x ∈ xs := by
  induction xs with
  | nil => simp [insertAscending]
  | cons y ys ih =>
    unfold insertAscending
    split_ifs
    · simp
    · simp [ih]; tauto

theorem mem_foldr_insertAscending (x : Nat × String) (xs : List (Nat × String)) :
    x ∈ xs.foldr insertAscending [] ↔ x ∈ xs := by
  induction xs with
  | nil => simp
  | cons y ys ih => simp [mem_insertAscending, ih]

theorem mem_ownKeys (o : JSObject V) (k : String) :
    k ∈ o.ownKeys ↔ k ∈ o.props.map Prod.fst := by
  unfold ownKeys
  simp only [List.mem_append, List.mem_map, List.mem_filter, mem_foldr_insertAscending,
    List.mem_filterMap]
  constructor
  · rintro (⟨⟨n, k'⟩, ⟨a, ha, hn⟩, rfl⟩ | ⟨h, _⟩)
    · cases hidx : arrayIndex? a with
      | none => simp [hidx] at hn
      | some m =>
        simp [hidx] at hn
        obtain ⟨-, rfl⟩ := hn
        exact ha
    · exact h
  · intro h
    cases hidx : arrayIndex? k with
    | none => right; exact ⟨h, by simp⟩
    | some m =>
      left
      exact ⟨(m, k), ⟨k, h, by simp [hidx]⟩, rfl⟩

theorem getOwn_foldl_set (source : JSObject V) (ks : List String) (target : JSObject V)
    (k : String) :
    (ks.foldl (copyProp source) target).getOwn k
      = if k ∈ ks then (source.getOwn k).orElse (fun _ => target.getOwn k)
        else target.getOwn k := by
  induction ks generalizing target with
  | nil => simp
  | cons a as ih =>
    simp only [List.foldl_cons, List.mem_cons]
    rw [ih]
    by_cases hka : k = a
    · subst hka
      cases hs : source.getOwn k with
      | none => simp [copyProp, hs]
      | some v => simp [copyProp, hs, getOwn_set]
    · cases hs : source.getOwn a with
      | none => simp [copyProp, hs, hka]
      | some v => simp [copyProp, hs, getOwn_set, hka]

theorem getOwn_spread (target source : JSObject V) (k : String) :
    (spread target source).getOwn k
      = (source.getOwn k).orElse (fun _ => target.getOwn k) := by
  unfold spread
  rw [getOwn_foldl_set]
  split_ifs with h
  · rfl
  · have : source.getOwn k = none := by
      by_contra hne
      apply h
      rw [mem_ownKeys, ← lookup_isSome_iff]
      exact Option.ne_none_iff_isSome.mp hne
    simp [this]

end JSObject

theorem getOwn_store (queries : JSObject QueryResult) (a : String) (data : OwnedNftsResponse)
    (tdo : List Nft) (k : String) :
    (store queries a data tdo).getOwn k
      = match queries.getOwn k with
        | some r => some r
        | none => if k = a then some ⟨data, tdo⟩ else none := by
  unfold store
  rw [JSObject.getOwn_spread, JSObject.getOwn_set]
  cases queries.getOwn k <;> simp [JSObject.getOwn_empty]

/-! ## `Promise.all` -/

section PromiseAll

variable {ε α : Type}

theorem mem_settleOrder (n : Nat) (hint : List Nat) (i : Nat) (h : i < n) :
    i ∈ settleOrder n hint := by
  unfold settleOrder
  by_cases hi : i ∈ hint
  · simp [List.mem_append, List.mem_dedup, List.mem_filter, hi, h]
  · simp [List.mem_append, List.mem_filter, List.mem_range, hi, h]

theorem settleElement_length (ps : List (Except ε α)) (st : AllState ε α) (i : Nat) :
    (settleElement ps st i).values.length = st.values.length := by
  unfold settleElement
  split
  · rfl
  · split <;> rfl
  · simp

theorem foldl_settleElement_length (ps : List (Except ε α)) (os : List Nat)
    (st : AllState ε α) :
    (os.foldl (settleElement ps) st).values.length = st.values.length := by
  induction os generalizing st with
  | nil => rfl
  | cons a as ih => simp [ih, settleElement_length]

theorem settleElement_stable (ps : List (Except ε α)) (st : AllState ε α) (a i : Nat) (x : α)
    (hp : ps[i]? = some (.ok x)) (hv : st.values[i]? = some (some x)) :
    (settleElement ps st a).values[i]? = some (some x) := by
  unfold settleElement
  split
  · exact hv
  · split <;> exact hv
  · next y hy =>
    by_cases hai : a = i
    · subst hai
      rw [hp] at hy
      cases hy
      have hlt : a < st.values.length := by
        by_contra hge
        rw [List.getElem?_eq_none (Nat.le_of_not_lt hge)] at hv
        cases hv
      show (st.values.set a (some x))[a]? = some (some x)
      exact List.getElem?_set_self hlt
    · simp [List.getElem?_set_ne hai, hv]

theorem foldl_settleElement_stable (ps : List (Except ε α)) (os : List Nat)
    (st : AllState ε α) (i : Nat) (x : α)
    (hp : ps[i]? = some (.ok x)) (hv : st.values[i]? = some (some x)) :
    (os.foldl (settleElement ps) st).values[i]? = some (some x) := by
  induction os generalizing st with
  | nil => exact hv
  | cons a as ih => exact ih _ (settleElement_stable ps st a i x hp hv)

theorem foldl_settleElement_filled (ps : List (Except ε α)) (os : List Nat)
    (st : AllState ε α) (i : Nat) (x : α)
    (hp : ps[i]? = some (.ok x)) (hi : i ∈ os) (hlt : i < st.values.length) :
    (os.foldl (settleElement ps) st).values[i]? = some (some x) := by
  induction os generalizing st with
  | nil => cases hi
  | cons a as ih =>
    rw [List.foldl_cons]
    by_cases hai : i = a
    · subst hai
      apply foldl_settleElement_stable ps as _ i x hp
      unfold settleElement
      simp [hp, List.getElem?_set_self hlt]
    · have hmem : i ∈ as := by
        rcases List.mem_cons.mp hi with h | h
        · exact absurd h hai
        · exact h
      exact ih _ hmem (by rw [settleElement_length]; exact hlt)

theorem foldl_settleElement_rejected_none (ps : List (Except ε α)) (os : List Nat)
    (st : AllState ε α)
    (h : (os.foldl (settleElement ps) st).rejected = none) :
    st.rejected = none ∧ ∀ i ∈ os, ∀ e, ps[i]? ≠ some (.error e) := by
  induction os generalizing st with
  | nil => exact ⟨h, by simp⟩
  | cons a as ih =>
    rw [List.foldl_cons] at h
    obtain ⟨h1, h2⟩ := ih _ h
    have key : st.rejected = none ∧ ∀ e, ps[a]? ≠ some (.error e) := by
      unfold settleElement at h1
      split at h1
      · next hn => exact ⟨h1, by simp [hn]⟩
      · split at h1
        · cases h1
        · next hs _ hr => rw [hr] at h1; cases h1
      · next y hy => exact ⟨h1, by simp [hy]⟩
    refine ⟨key.1, ?_⟩
    intro i hi e
    rcases List.mem_cons.mp hi with rfl | hmem
    · exact key.2 e
    · exact h2 i hmem e

theorem foldl_settleElement_rejected_mem (ps : List (Except ε α)) (os : List Nat)
    (st : AllState ε α) (e : ε)
    (h : (os.foldl (settleElement ps) st).rejected = some e) :
    st.rejected = some e ∨ Except.error e ∈ ps := by
  induction os generalizing st with
  | nil => exact Or.inl h
  | cons a as ih =>
    rw [List.foldl_cons] at h
    rcases ih _ h with h1 | h1
    · unfold settleElement at h1
      split at h1
      · exact Or.inl h1
      · next e' he' =>
        split at h1
        · simp at h1
          subst h1
          exact Or.inr (List.getElem?_mem he')
        · exact Or.inl h1
      · exact Or.inl h1
    · exact Or.inr h1

/-- When `Promise.all` fulfils, every promise was fulfilled and the values are
those of the promises, index by index, whatever the settle order. -/
theorem promiseAll_eq_ok (ps : List (Except ε α)) (hint : List Nat) (vs : List α)
    (h : promiseAll ps hint = .ok vs) : ps = vs.map .ok := by
  unfold promiseAll at h
  simp only at h
  split at h
  · cases h
  · next hrej =>
    injection h with h
    obtain ⟨-, hnoerr⟩ := foldl_settleElement_rejected_none ps _ _ hrej
    have hfilled : ∀ (i : Nat) (x : α), ps[i]? = some (Except.ok x) →
        ((settleOrder ps.length hint).foldl (settleElement ps)
          ⟨List.replicate ps.length none, none⟩).values[i]? = some (some x) := by
      intro i x hp
      have hlt : i < ps.length := by
        by_contra hge
        rw [List.getElem?_eq_none (Nat.le_of_not_lt hge)] at hp
        cases hp
      exact foldl_settleElement_filled ps _ _ i x hp (mem_settleOrder _ _ i hlt)
        (by simpa using hlt)
    have hvalues : ((settleOrder ps.length hint).foldl (settleElement ps)
          ⟨List.replicate ps.length none, none⟩).values
        = ps.map (fun p => match p with | .ok x => some x | .error _ => none) := by
      apply List.ext_getElem?
      intro i
      by_cases hlt : i < ps.length
      · have hpi : ps[i]? = some ps[i] := List.getElem?_eq_getElem hlt
        cases hp : ps[i] with
        | error e =>
          exact absurd (hp ▸ hpi) (hnoerr i (mem_settleOrder _ _ i hlt) e)
        | ok x =>
          rw [hfilled i x (hp ▸ hpi)]
          simp [List.getElem?_map, hpi, hp]
      · have hge := Nat.le_of_not_lt hlt
        rw [List.getElem?_eq_none, List.getElem?_eq_none]
        · simpa using hge
        · rw [foldl_settleElement_length]; simpa using hge
    rw [hvalues] at h
    subst h
    clear hvalues hfilled hrej
    induction ps with
    | nil => rfl
    | cons p ps ih =>
      cases p with
      | error e => exact absurd (by simp) (hnoerr 0 (mem_settleOrder _ _ 0 (by simp)) e)
      | ok x =>
        simp only [List.map_cons, List.filterMap_cons, id]
        congr 1
        apply ih
        intro i _ e hi
        exact hnoerr (i + 1) (mem_settleOrder _ _ _ (by
          have : i < ps.length := by
            by_contra hge
            rw [List.getElem?_eq_none (Nat.le_of_not_lt hge)] at hi
            cases hi
          simpa using this)) e (by simpa using hi)

/-- When `Promise.all` rejects, the reason is the rejection of one of its
promises. -/
theorem promiseAll_eq_error (ps : List (Except ε α)) (hint : List Nat) (e : ε)
    (h : promiseAll ps hint = .error e) : Except.error e ∈ ps := by
  unfold promiseAll at h
  simp only at h
  split at h
  · next e' hrej =>
    injection h with h
    subst h
    rcases foldl_settleElement_rejected_mem ps _ _ _ hrej with h1 | h1
    · cases h1
    · exact h1
  · cases h

/-- `Promise.all` over fulfilled promises fulfils with their values in index
order, whatever the settle order. -/
theorem promiseAll_map_ok (vs : List α) (hint : List Nat) :
    promiseAll (vs.map (Except.ok : α → Except ε α)) hint = .ok vs := by
  cases h : promiseAll (vs.map (Except.ok : α → Except ε α)) hint with
  | error e =>
    have := promiseAll_eq_error _ _ _ h
    simp at this
  | ok ws =>
    have := promiseAll_eq_ok _ _ _ h
    have hinj : Function.Injective (Except.ok : α → Except ε α) := by
      intro a b hab; injection hab
    rw [(List.map_injective_iff.mpr hinj) this]

end PromiseAll

/-! ## The shape of one call -/

theorem getOwn_eq_none_of_not_truthy (q : JSObject QueryResult) (a : String)
    (h : (lookup q a).truthy = false) : q.getOwn a = none := by
  unfold lookup at h
  cases hq : q.getOwn a with
  | none => rfl
  | some r => simp [hq, PropertyValue.truthy] at h

theorem lookup_of_getOwn (q : JSObject QueryResult) (a : String) (r : QueryResult)
    (h : q.getOwn a = some r) : lookup q a = .entry r := by
  simp [lookup, h]

theorem getNFTsForOwner_outcome (closure s : State) (address : Option String) (net : Net) :
    Outcome closure s address net (getNFTsForOwner closure s address net) := by
  unfold getNFTsForOwner
  simp only
  by_cases h : effectiveAddress address closure.userAddress = ""
  · rw [if_pos h]
    exact .noQuery h
  · rw [if_neg h]
    cases ht : (lookup closure.queries
        (effectiveAddress address closure.userAddress)).truthy with
    | true =>
      simp only [if_true]
      exact .hit h ht
    | false =>
      simp only [Bool.false_eq_true, if_false]
      cases hl : net.getNftsForOwner (effectiveAddress address closure.userAddress) with
      | error e => exact .listFailed h ht e hl
      | ok data =>
        simp only
        cases hm : promiseAll (tokenDataPromises net data) net.settleHint with
        | error e => exact .metadataFailed h ht data e hl hm
        | ok tdo => exact .stored h ht data tdo hl hm

/-- A call whose closure holds an entry for the non-empty address it queries
makes no client call and shows that entry. -/
theorem getNFTsForOwner_of_closure_entry (closure s : State) (address : Option String)
    (net : Net) (r : QueryResult)
    (hne : effectiveAddress address closure.userAddress ≠ "")
    (hr : closure.queries.getOwn (effectiveAddress address closure.userAddress) = some r) :
    getNFTsForOwner closure s address net
      = ({ s with results := .response r.data,
                  tokenDataObjects := .array r.tokenDataObjects,
                  hasQueried := true }, []) := by
  have hl := lookup_of_getOwn _ _ _ hr
  simp [getNFTsForOwner, hne, hl, PropertyValue.truthy, PropertyValue.data,
    PropertyValue.tokenDataObjects]

/-! ## The claims about one call -/

/-- C5: with no or an empty argument and an empty input field, the call makes
no client call and raises no alert, leaves the cache as it was and ends with
`hasQueried` false, so the render shows the placeholder instead of the grid.
This holds for the closure of any render whose input field is empty, whatever
the current state `s` is. -/
theorem empty_address_is_no_query (closure s : State) (address : Option String) (net : Net)
    (harg : address = none ∨ address = some "") (huser : closure.userAddress = "") :
    (getNFTsForOwner closure s address net).2 = []
      ∧ (getNFTsForOwner closure s address net).1.queries = s.queries
      ∧ (getNFTsForOwner closure s address net).1.hasQueried = false
      ∧ grid (getNFTsForOwner closure s address net).1 = .ok none := by
  have h : effectiveAddress address closure.userAddress = "" := by
    rcases harg with rfl | rfl <;> simp [effectiveAddress, huser]
  simp [getNFTsForOwner, h, grid]

/-- C5 at a state that shows a result: the fetch button with an empty field hides it. -/
theorem empty_address_is_no_query_witness :
    stateAfterB.hasQueried = true
      ∧ (getNFTsForOwner stateAfterB stateAfterB none netOk).2 = []
      ∧ (getNFTsForOwner stateAfterB stateAfterB none netOk).1.queries = stateAfterB.queries
      ∧ (getNFTsForOwner stateAfterB stateAfterB none netOk).1.hasQueried = false
      ∧ grid (getNFTsForOwner stateAfterB stateAfterB none netOk).1 = .ok none :=
  ⟨by decide,
    empty_address_is_no_query stateAfterB stateAfterB none netOk (Or.inl rfl) (by decide)⟩

/-- C3 (the code at the failing input): the user types "0xA" and fetches it
while the wallet prompt is open, which caches a two-token entry for "0xA";
then the wallet answers with the account "0xA".  The call made by the wallet
effect reads the empty `queries` of the render in which the effect ran, so it
requests the token list of "0xA" a second time, with no failure alert raised,
and shows the fresh one-token answer, while the cache still holds the
two-token entry. -/
theorem stale_wallet_call_fetches_cached_address :
    stateAfterA.queries.getOwn "0xA" = some ⟨⟨[nftA, nftB]⟩, [metaA, metaB]⟩
      ∧ (step stateAfterA (.connectWallet "0xA" netLater)).2
        = [.getNftsForOwner "0xA", .getNftMetadata "0xdecaf" "7"]
      ∧ fetchCount "0xA" (run initialState walletAfterUserQuery).2 = 2
      ∧ tokenListFetches (run initialState walletAfterUserQuery).2 = 2
      ∧ alertCount (run initialState walletAfterUserQuery).2 = 0
      ∧ (run initialState walletAfterUserQuery).1.results = .response ⟨[nftC]⟩
      ∧ (run initialState walletAfterUserQuery).1.tokenDataObjects = .array [metaC]
      ∧ (run initialState walletAfterUserQuery).1.queries.getOwn "0xA"
        = some ⟨⟨[nftA, nftB]⟩, [metaA, metaB]⟩ := by
  decide

/-- C4: when the address is non-empty, the call requests its token list (which
it does only for an address without a cache entry in its closure), and that
request or one of the metadata requests fails, then the cache after the call is
the current cache before it, the failure alert is raised and `loading` is
false.  This holds whichever render the closure belongs to. -/
theorem failure_leaves_cache_unchanged (closure s : State) (address : Option String)
    (net : Net)
    (hne : effectiveAddress address closure.userAddress ≠ "")
    (hissued : Effect.getNftsForOwner (effectiveAddress address closure.userAddress)
      ∈ (getNFTsForOwner closure s address net).2)
    (hfail :
      (∃ e, net.getNftsForOwner (effectiveAddress address closure.userAddress) = .error e)
      ∨ ∃ data e,
          net.getNftsForOwner (effectiveAddress address closure.userAddress) = .ok data
            ∧ Except.error e ∈ tokenDataPromises net data) :
    (getNFTsForOwner closure s address net).1.queries = s.queries
      ∧ Effect.alert failureMessage ∈ (getNFTsForOwner closure s address net).2
      ∧ (getNFTsForOwner closure s address net).1.loading = false := by
  have hout := getNFTsForOwner_outcome closure s address net
  generalize getNFTsForOwner closure s address net = r1 at hout hissued
  cases hout with
  | noQuery h => exact absurd h hne
  | hit h ht => simp at hissued
  | listFailed h ht e hl => simp
  | metadataFailed h ht data e hl hm => simp
  | stored h ht data tdo hl hm =>
    exfalso
    rcases hfail with ⟨e, he⟩ | ⟨data2, e, hd, hmem⟩
    · rw [hl] at he; cases he
    · rw [hl] at hd
      injection hd with hd
      subst hd
      rw [promiseAll_eq_ok _ _ _ hm] at hmem
      simp at hmem

/-- C4 at a one-entry cache and a query of "0xA" whose second metadata request
fails. -/
theorem failure_leaves_cache_unchanged_witness :
    (getNFTsForOwner stateAfterB stateAfterB (some "0xA") netMetadataFails).1.queries
        = stateAfterB.queries
      ∧ Effect.alert failureMessage
          ∈ (getNFTsForOwner stateAfterB stateAfterB (some "0xA") netMetadataFails).2
      ∧ (getNFTsForOwner stateAfterB stateAfterB (some "0xA") netMetadataFails).1.loading
        = false :=
  failure_leaves_cache_unchanged stateAfterB stateAfterB (some "0xA") netMetadataFails
    (by decide) (by decide)
    (Or.inr ⟨⟨[nftA, nftB]⟩, "metadata", rfl, List.Mem.tail _ (List.Mem.head _)⟩)

/-- C1 (as amended): after the store, the lookup of the stored address returns
the stored result when the address had no entry, and the entry that was already
there when it had one: the store inserts and never overwrites. -/
theorem store_then_lookup (q : JSObject QueryResult) (a : String) (data : OwnedNftsResponse)
    (tdo : List Nft) :
    lookup (store q a data tdo) a
      = match q.getOwn a with
        | none => .entry ⟨data, tdo⟩
        | some r0 => .entry r0 := by
  cases h : q.getOwn a with
  | none =>
    apply lookup_of_getOwn
    rw [getOwn_store, h]; simp
  | some r0 =>
    apply lookup_of_getOwn
    rw [getOwn_store, h]

/-- C1 (counterexample): storing a two-token result under "0xA" in a cache that
already holds a one-token entry for "0xA" leaves the one-token entry in place;
the lookup does not return the result just stored. -/
theorem store_does_not_overwrite :
    lookup (store cacheWithA "0xA" ⟨[nftA, nftB]⟩ [metaA, metaB]) "0xA"
        = .entry ⟨⟨[nftC]⟩, [metaC]⟩
      ∧ lookup (store cacheWithA "0xA" ⟨[nftA, nftB]⟩ [metaA, metaB]) "0xA"
        ≠ .entry ⟨⟨[nftA, nftB]⟩, [metaA, metaB]⟩ := by
  decide

/-- C2 (the code at the failing input): with the empty initial cache, the
address "constructor" has no stored entry, yet `queries["constructor"]` is the
inherited property and is truthy; the call takes the cache-hit branch, makes no
client call, sets `results` and `tokenDataObjects` to `undefined` and
`hasQueried` to true, and the render then throws. -/
theorem inherited_key_is_a_cache_hit :
    initialState.queries.getOwn "constructor" = none
      ∧ lookup initialState.queries "constructor" = .inherited "constructor"
      ∧ (lookup initialState.queries "constructor").truthy = true
      ∧ run initialState [.setUserAddress "constructor", .getNFTsForOwner none netOk]
          = ({ userAddress := "constructor", results := .undefined, hasQueried := true,
               queries := JSObject.empty, tokenDataObjects := .undefined,
               loading := false }, [])
      ∧ grid stateAfterConstructor = .error "TypeError" :=
  ⟨by decide, by decide, by decide, by decide, rfl⟩

/-- C7: an address that has a cache entry before a call of `getNFTsForOwner`
has the same entry after it, whatever the argument, the answers of the client
and the render whose closure is called; and the updater that stores a fetched
result keeps every entry of the cache it is applied to, the entry of the stored
address included. -/
theorem cached_entries_are_kept (closure s : State) (address : Option String) (net : Net)
    (k : String) (r : QueryResult) (h : s.queries.getOwn k = some r) :
    (getNFTsForOwner closure s address net).1.queries.getOwn k = some r
      ∧ ∀ a data tdo, (store s.queries a data tdo).getOwn k = some r := by
  have hstore : ∀ a data tdo, (store s.queries a data tdo).getOwn k = some r := by
    intro a data tdo
    rw [getOwn_store, h]
  refine ⟨?_, hstore⟩
  have hout := getNFTsForOwner_outcome closure s address net
  generalize getNFTsForOwner closure s address net = r1 at hout
  cases hout with
  | noQuery _ => exact h
  | hit _ _ => exact h
  | listFailed _ _ _ _ => exact h
  | metadataFailed _ _ _ _ _ _ => exact h
  | stored _ _ data tdo _ _ => exact hstore _ data tdo

/-- C7 at the cache that holds a two-token entry for "0xA" and the call of the
wallet effect, which fetches "0xA" again and gets a one-token answer. -/
theorem cached_entries_are_kept_witness :
    (getNFTsForOwner initialState stateAfterA (some "0xA") netLater).1.queries.getOwn "0xA"
        = some ⟨⟨[nftA, nftB]⟩, [metaA, metaB]⟩
      ∧ ∀ a data tdo, (store stateAfterA.queries a data tdo).getOwn "0xA"
        = some ⟨⟨[nftA, nftB]⟩, [metaA, metaB]⟩ :=
  cached_entries_are_kept initialState stateAfterA (some "0xA") netLater "0xA"
    ⟨⟨[nftA, nftB]⟩, [metaA, metaB]⟩ (by decide)

/-- C10 (the code at the failing input): after a successful query of "0xB" (one
token) and a query of "0xA" whose token list (two tokens) arrives and whose
second metadata request fails, `hasQueried` is true, `results` is the token
list of "0xA" and `tokenDataObjects` is the metadata of "0xB": the lengths
differ and the grid shows the first token of "0xA" with the metadata of the
token of "0xB". -/
theorem failed_metadata_fetch_tears_display :
    stateAfterFailedMetadata.hasQueried = true
      ∧ stateAfterFailedMetadata.results = .response ⟨[nftA, nftB]⟩
      ∧ stateAfterFailedMetadata.tokenDataObjects = .array [metaC]
      ∧ stateAfterFailedMetadata.queries.getOwn "0xA" = none
      ∧ stateAfterFailedMetadata.queries.getOwn "0xB" = some ⟨⟨[nftC]⟩, [metaC]⟩
      ∧ grid stateAfterFailedMetadata = .ok (some [(nftA, some metaC), (nftB, none)]) :=
  ⟨by decide, by decide, by decide, by decide, by decide, rfl⟩

/-! ## Index alignment -/

theorem tokenDataPromises_length (net : Net) (data : OwnedNftsResponse) :
    (tokenDataPromises net data).length = data.ownedNfts.length := by
  simp [tokenDataPromises]

theorem tokenDataPromises_getElem? (net : Net) (data : OwnedNftsResponse) (i : Nat)
    (t : OwnedNft) (h : data.ownedNfts[i]? = some t) :
    (tokenDataPromises net data)[i]? = some (net.getNftMetadata i t.contractAddress t.tokenId) := by
  simp [tokenDataPromises, List.getElem?_map, List.getElem?_enum, h]

/-- The result that a successful fetch sequence stores is aligned with the
answers of the client, whatever the settle order. -/
theorem alignedWith_of_promiseAll (net : Net) (a : String) (data : OwnedNftsResponse)
    (tdo : List Nft) (hl : net.getNftsForOwner a = .ok data)
    (hm : promiseAll (tokenDataPromises net data) net.settleHint = .ok tdo) :
    AlignedWith net a ⟨data, tdo⟩ := by
  have hps := promiseAll_eq_ok _ _ _ hm
  have hlen : tdo.length = data.ownedNfts.length := by
    have := congrArg List.length hps
    rw [tokenDataPromises_length, List.length_map] at this
    exact this.symm
  refine ⟨hl, hlen, ?_⟩
  intro i t ht
  have h1 := tokenDataPromises_getElem? net data i t ht
  rw [hps, List.getElem?_map] at h1
  cases hm' : tdo[i]? with
  | none => rw [hm'] at h1; cases h1
  | some m =>
    rw [hm'] at h1
    simp only [Option.map_some', Option.some.injEq] at h1
    exact ⟨m, rfl, h1.symm⟩

/-- One call: an entry of the cache after the call was in the current cache
before it or is aligned with the answers of the client of this call. -/
theorem getNFTsForOwner_entries (closure s : State) (address : Option String) (net : Net)
    (k : String) (r : QueryResult)
    (h : (getNFTsForOwner closure s address net).1.queries.getOwn k = some r) :
    s.queries.getOwn k = some r ∨ AlignedWith net k r := by
  have hout := getNFTsForOwner_outcome closure s address net
  generalize getNFTsForOwner closure s address net = r1 at hout h
  cases hout with
  | noQuery _ => exact Or.inl h
  | hit _ _ => exact Or.inl h
  | listFailed _ _ _ _ => exact Or.inl h
  | metadataFailed _ _ _ _ _ _ => exact Or.inl h
  | stored _ _ data tdo hl hm =>
    simp only at h
    rw [getOwn_store] at h
    cases hq : s.queries.getOwn k with
    | some r0 =>
      rw [hq] at h
      exact Or.inl h
    | none =>
      rw [hq] at h
      simp only at h
      split_ifs at h with hk
      · injection h with h
        subst h
        subst hk
        exact Or.inr (alignedWith_of_promiseAll net _ data tdo hl hm)

theorem run_entries (actions : List Action) (s : State) (k : String) (r : QueryResult)
    (h : (run s actions).1.queries.getOwn k = some r) :
    s.queries.getOwn k = some r
      ∨ ∃ net, ((∃ address, Action.getNFTsForOwner address net ∈ actions)
            ∨ ∃ address, Action.connectWallet address net ∈ actions)
          ∧ AlignedWith net k r := by
  induction actions generalizing s with
  | nil => exact Or.inl h
  | cons a rest ih =>
    simp only [run] at h
    rcases ih _ h with h1 | ⟨net, hmem, hal⟩
    · cases a with
      | setUserAddress value => exact Or.inl h1
      | getNFTsForOwner address net =>
        rcases getNFTsForOwner_entries s s address net k r h1 with h2 | h2
        · exact Or.inl h2
        · exact Or.inr ⟨net, Or.inl ⟨address, List.mem_cons_self _ _⟩, h2⟩
      | connectWallet address net =>
        simp only [step] at h1
        split_ifs at h1 with hempty
        · exact Or.inl h1
        · rcases getNFTsForOwner_entries _ _ _ net k r h1 with h2 | h2
          · exact Or.inl h2
          · exact Or.inr ⟨net, Or.inr ⟨address, List.mem_cons_self _ _⟩, h2⟩
    · refine Or.inr ⟨net, ?_, hal⟩
      rcases hmem with ⟨address, hm⟩ | ⟨address, hm⟩
      · exact Or.inl ⟨address, List.mem_cons_of_mem _ hm⟩
      · exact Or.inr ⟨address, List.mem_cons_of_mem _ hm⟩

/-- C6: every entry of a cache reached from the initial state was stored by one
of the calls of `getNFTsForOwner` made on the way, by the user or by the wallet
effect, and is aligned with the answers the client gave to that call: its token
list is the answer for the address, its metadata sequence has the length of the
token list, and the metadata at index `i` is the answer of the `getNftMetadata`
call made for the token at index `i`, whatever the order in which the requests
settled. -/
theorem cached_entries_index_aligned (actions : List Action) (k : String) (r : QueryResult)
    (h : (run initialState actions).1.queries.getOwn k = some r) :
    r.tokenDataObjects.length = r.data.ownedNfts.length
      ∧ ∃ net, ((∃ address, Action.getNFTsForOwner address net ∈ actions)
            ∨ ∃ address, Action.connectWallet address net ∈ actions)
          ∧ AlignedWith net k r := by
  rcases run_entries actions initialState k r h with h1 | ⟨net, hmem, hal⟩
  · cases h1
  · exact ⟨hal.2.1, net, hmem, hal⟩

/-- C6 at a run of two successful queries whose metadata requests settle in
reverse index order. -/
theorem cached_entries_index_aligned_witness :
    (⟨⟨[nftA, nftB]⟩, [metaA, metaB]⟩ : QueryResult).tokenDataObjects.length
        = (⟨⟨[nftA, nftB]⟩, [metaA, metaB]⟩ : QueryResult).data.ownedNfts.length
      ∧ ∃ net,
          ((∃ address, Action.getNFTsForOwner address net
                ∈ [Action.getNFTsForOwner (some "0xB") netOk,
                    Action.getNFTsForOwner (some "0xA") netOk])
            ∨ ∃ address, Action.connectWallet address net
                ∈ [Action.getNFTsForOwner (some "0xB") netOk,
                    Action.getNFTsForOwner (some "0xA") netOk])
            ∧ AlignedWith net "0xA" ⟨⟨[nftA, nftB]⟩, [metaA, metaB]⟩ :=
  cached_entries_index_aligned
    [.getNFTsForOwner (some "0xB") netOk, .getNFTsForOwner (some "0xA") netOk] "0xA"
    ⟨⟨[nftA, nftB]⟩, [metaA, metaB]⟩ (by decide)

/-! ## Settle orders -/

/-- The settle order names every promise exactly once. -/
theorem settleOrder_perm (n : Nat) (hint : List Nat) :
    (settleOrder n hint).Perm (List.range n) := by
  rw [List.perm_ext_iff_of_nodup]
  · intro i
    unfold settleOrder
    simp only [List.mem_append, List.mem_dedup, List.mem_filter, List.mem_range,
      decide_eq_true_eq]
    constructor
    · rintro (⟨_, h⟩ | ⟨h, _⟩) <;> exact h
    · intro h
      by_cases hi : i ∈ hint
      · exact Or.inl ⟨hi, h⟩
      · exact Or.inr ⟨h, hi⟩
  · unfold settleOrder
    apply List.Nodup.append (List.nodup_dedup _) ((List.nodup_range n).filter _)
    intro i h1 h2
    simp only [List.mem_dedup, List.mem_filter, decide_eq_true_eq] at h1 h2
    exact h2.2 h1.1
  · exact List.nodup_range n

/-- Every order in which the promises can settle is the settle order of some
hint: the order itself. -/
theorem settleOrder_of_perm (n : Nat) (order : List Nat)
    (h : order.Perm (List.range n)) : settleOrder n order = order := by
  have hmem : ∀ i, i ∈ order ↔ i < n := by
    intro i
    rw [h.mem_iff, List.mem_range]
  have hnodup : order.Nodup := h.nodup_iff.mpr (List.nodup_range n)
  unfold settleOrder
  have h1 : order.filter (fun i => decide (i < n)) = order := by
    rw [List.filter_eq_self]
    intro i hi
    simpa using (hmem i).mp hi
  have h2 : (List.range n).filter (fun i => decide (i ∉ order)) = [] := by
    rw [List.filter_eq_nil_iff]
    intro i hi
    simpa using (hmem i).mpr (List.mem_range.mp hi)
  rw [h1, h2, hnodup.dedup, List.append_nil]

/-! ## Counting client calls -/

theorem fetchCount_metadataCalls (a : String) (data : OwnedNftsResponse) :
    fetchCount a (metadataCalls data) = 0 := by
  unfold fetchCount metadataCalls
  rw [List.count_eq_zero]
  intro he
  rw [List.mem_map] at he
  obtain ⟨t, -, ht⟩ := he
  cases ht

theorem alertCount_metadataCalls (data : OwnedNftsResponse) :
    alertCount (metadataCalls data) = 0 := by
  unfold alertCount metadataCalls
  rw [List.count_eq_zero]
  intro he
  rw [List.mem_map] at he
  obtain ⟨t, -, ht⟩ := he
  cases ht

theorem fetchCount_append (a : String) (xs ys : List Effect) :
    fetchCount a (xs ++ ys) = fetchCount a xs + fetchCount a ys := by
  simp [fetchCount, List.count_append]

theorem alertCount_append (xs ys : List Effect) :
    alertCount (xs ++ ys) = alertCount xs + alertCount ys := by
  simp [alertCount, List.count_append]

theorem fetchCount_fetch_cons (a b : String) (xs : List Effect) :
    fetchCount a (Effect.getNftsForOwner b :: xs)
      = (if b = a then 1 else 0) + fetchCount a xs := by
  unfold fetchCount
  rw [List.count_cons]
  by_cases h : b = a
  · simp [h, Nat.add_comm]
  · simp [h]

theorem unfetched_store (a b : String) (q : JSObject QueryResult) (data : OwnedNftsResponse)
    (tdo : List Nft) (hb : q.getOwn b = none) :
    unfetched a (store q b data tdo) + (if b = a then 1 else 0) = unfetched a q := by
  unfold unfetched
  rw [getOwn_store]
  by_cases h : b = a
  · subst h
    simp [hb]
  · have h' : ¬ a = b := fun e => h e.symm
    cases hq : q.getOwn a <;> simp [h, h']

/-- One call from the current render: the requests for `a` it makes, plus what
remains expected after it, are bounded by what was expected before it plus the
alerts it raises. -/
theorem getNFTsForOwner_fetch_budget (s : State) (address : Option String) (net : Net)
    (a : String) :
    fetchCount a (getNFTsForOwner s s address net).2
        + unfetched a (getNFTsForOwner s s address net).1.queries
      ≤ unfetched a s.queries + alertCount (getNFTsForOwner s s address net).2 := by
  have hout := getNFTsForOwner_outcome s s address net
  generalize getNFTsForOwner s s address net = r1 at hout
  cases hout with
  | noQuery _ => simp [fetchCount, alertCount]
  | hit _ _ => simp [fetchCount, alertCount]
  | listFailed _ ht e _ =>
    simp only [fetchCount_fetch_cons]
    have h1 : fetchCount a [Effect.consoleLog e, Effect.alert failureMessage] = 0 := by
      simp [fetchCount, List.count_cons]
    have h2 : alertCount [Effect.getNftsForOwner (effectiveAddress address s.userAddress),
        Effect.consoleLog e, Effect.alert failureMessage] = 1 := by
      simp [alertCount, List.count_cons]
    rw [h1, h2]
    split_ifs <;> omega
  | metadataFailed _ ht data e _ _ =>
    simp only [fetchCount_fetch_cons, fetchCount_append, fetchCount_metadataCalls]
    have h1 : fetchCount a [Effect.consoleLog e, Effect.alert failureMessage] = 0 := by
      simp [fetchCount, List.count_cons]
    have h2 : alertCount (Effect.getNftsForOwner (effectiveAddress address s.userAddress)
        :: metadataCalls data ++ [Effect.consoleLog e, Effect.alert failureMessage]) = 1 := by
      have := alertCount_metadataCalls data
      unfold alertCount at this ⊢
      rw [List.count_append, List.count_cons, this]
      simp [List.count_cons]
    rw [h1, h2]
    split_ifs <;> omega
  | stored _ ht data tdo _ _ =>
    have hown := getOwn_eq_none_of_not_truthy _ _ ht
    have hs := unfetched_store a _ s.queries data tdo hown
    simp only [fetchCount_fetch_cons, fetchCount_metadataCalls]
    omega

theorem run_fetch_budget (actions : List Action) (s : State) (a : String)
    (hcur : ∀ act ∈ actions, act.fromCurrentRender = true) :
    fetchCount a (run s actions).2 + unfetched a (run s actions).1.queries
      ≤ unfetched a s.queries + alertCount (run s actions).2 := by
  induction actions generalizing s with
  | nil => simp [run, fetchCount, alertCount]
  | cons act rest ih =>
    simp only [run, fetchCount_append, alertCount_append]
    have hrest := ih (step s act).1 (fun b hb => hcur b (List.mem_cons_of_mem _ hb))
    have hstep : fetchCount a (step s act).2 + unfetched a (step s act).1.queries
        ≤ unfetched a s.queries + alertCount (step s act).2 := by
      cases act with
      | setUserAddress value => simp [step, fetchCount, alertCount]
      | getNFTsForOwner address net => exact getNFTsForOwner_fetch_budget s address net a
      | connectWallet address net =>
        have := hcur _ (List.mem_cons_self _ _)
        simp [Action.fromCurrentRender] at this
    omega

/-- One call, from whichever render, that requests the token list of `a` and
raises no alert leaves `a` cached. -/
theorem getNFTsForOwner_caches (closure s : State) (address : Option String) (net : Net)
    (a : String)
    (hfetch : Effect.getNftsForOwner a ∈ (getNFTsForOwner closure s address net).2)
    (hok : Effect.alert failureMessage ∉ (getNFTsForOwner closure s address net).2) :
    ((getNFTsForOwner closure s address net).1.queries.getOwn a).isSome = true := by
  have hout := getNFTsForOwner_outcome closure s address net
  generalize getNFTsForOwner closure s address net = r1 at hout hfetch hok
  cases hout with
  | noQuery _ => simp at hfetch
  | hit _ _ => simp at hfetch
  | listFailed _ _ _ _ => simp at hok
  | metadataFailed _ _ _ _ _ _ => simp at hok
  | stored _ ht data tdo _ _ =>
    have ha : a = effectiveAddress address closure.userAddress := by
      rcases List.mem_cons.mp hfetch with h | h
      · injection h
      · exfalso
        unfold metadataCalls at h
        rw [List.mem_map] at h
        obtain ⟨t, -, ht'⟩ := h
        cases ht'
    subst ha
    simp only
    rw [getOwn_store]
    cases s.queries.getOwn (effectiveAddress address closure.userAddress) <;> simp

/-- One call from the current render, from a state in which `a` is cached, does
not request the token list of `a` and leaves `a` cached. -/
theorem getNFTsForOwner_no_fetch_of_cached (s : State) (address : Option String) (net : Net)
    (a : String) (hc : (s.queries.getOwn a).isSome = true) :
    fetchCount a (getNFTsForOwner s s address net).2 = 0
      ∧ ((getNFTsForOwner s s address net).1.queries.getOwn a).isSome = true := by
  have hne : ∀ b, (lookup s.queries b).truthy = false → ¬ b = a := by
    intro b hb hba
    have := getOwn_eq_none_of_not_truthy _ _ hb
    rw [hba] at this
    rw [this] at hc
    cases hc
  have hout := getNFTsForOwner_outcome s s address net
  generalize getNFTsForOwner s s address net = r1 at hout
  cases hout with
  | noQuery _ => exact ⟨by simp [fetchCount], hc⟩
  | hit _ _ => exact ⟨by simp [fetchCount], hc⟩
  | listFailed _ ht e _ =>
    refine ⟨?_, hc⟩
    rw [fetchCount_fetch_cons, if_neg (hne _ ht)]
    simp [fetchCount, List.count_cons]
  | metadataFailed _ ht data e _ _ =>
    refine ⟨?_, hc⟩
    simp only [fetchCount_append, fetchCount_fetch_cons, fetchCount_metadataCalls,
      if_neg (hne _ ht)]
    simp [fetchCount, List.count_cons]
  | stored _ ht data tdo _ _ =>
    refine ⟨?_, ?_⟩
    · simp only [fetchCount_fetch_cons, fetchCount_metadataCalls, if_neg (hne _ ht)]
    · simp only
      rw [getOwn_store]
      cases hq : s.queries.getOwn a with
      | none => rw [hq] at hc; cases hc
      | some r => rfl

theorem run_no_fetch_of_cached (actions : List Action) (s : State) (a : String)
    (hcur : ∀ act ∈ actions, act.fromCurrentRender = true)
    (hc : (s.queries.getOwn a).isSome = true) :
    fetchCount a (run s actions).2 = 0 := by
  induction actions generalizing s with
  | nil => simp [run, fetchCount]
  | cons act rest ih =>
    simp only [run, fetchCount_append]
    have hrest := fun b hb => hcur b (List.mem_cons_of_mem act hb)
    cases act with
    | setUserAddress value =>
      have := ih { s with userAddress := value } hrest hc
      simp only [step]
      simpa [fetchCount] using this
    | getNFTsForOwner address net =>
      obtain ⟨h0, hc1⟩ := getNFTsForOwner_no_fetch_of_cached s address net a hc
      simp only [step]
      rw [h0, ih _ hrest hc1]
    | connectWallet address net =>
      have := hcur _ (List.mem_cons_self _ _)
      simp [Action.fromCurrentRender] at this

/-- C9 (as amended): a call that requests the token list of an address and
raises no failure alert leaves the address cached; from a state in which the
address is cached, no sequence of calls made from the current render (the fetch
button and the links of the recent queries) requests its token list again; and
in every such sequence from the initial state the token list of an address is
requested at most once more than the number of failure alerts raised, hence at
most once when no fetch fails.  The call made by the wallet effect is left out
of the sequences: the statement neither bounds nor allows its requests. -/
theorem fetch_at_most_once_unless_failed (closure s : State) (address : Option String)
    (net : Net) (actions : List Action) (a : String)
    (hcur : ∀ act ∈ actions, act.fromCurrentRender = true) :
    (Effect.getNftsForOwner a ∈ (getNFTsForOwner closure s address net).2 →
        Effect.alert failureMessage ∉ (getNFTsForOwner closure s address net).2 →
        ((getNFTsForOwner closure s address net).1.queries.getOwn a).isSome = true)
      ∧ ((s.queries.getOwn a).isSome = true → fetchCount a (run s actions).2 = 0)
      ∧ fetchCount a (run initialState actions).2
          ≤ 1 + alertCount (run initialState actions).2 := by
  refine ⟨getNFTsForOwner_caches closure s address net a,
    run_no_fetch_of_cached actions s a hcur, ?_⟩
  have := run_fetch_budget actions initialState a hcur
  have hu : unfetched a initialState.queries ≤ 1 := by
    unfold unfetched; split_ifs <;> omega
  omega

/-- C9 (as amended) at a successful query of "0xB" and at later queries, failing
ones included, from the state it leaves. -/
theorem fetch_at_most_once_unless_failed_witness :
    ((getNFTsForOwner initialState initialState (some "0xB") netOk).1.queries.getOwn
        "0xB").isSome = true
      ∧ fetchCount "0xB" (run stateAfterB
          [.getNFTsForOwner (some "0xA") netListFails, .setUserAddress "0xB",
            .getNFTsForOwner none netListFails]).2 = 0
      ∧ fetchCount "0xB" (run initialState
          [.getNFTsForOwner (some "0xB") netListFails, .getNFTsForOwner (some "0xB") netOk,
            .getNFTsForOwner (some "0xB") netListFails]).2
        ≤ 1 + alertCount (run initialState
          [.getNFTsForOwner (some "0xB") netListFails, .getNFTsForOwner (some "0xB") netOk,
            .getNFTsForOwner (some "0xB") netListFails]).2 :=
  ⟨(fetch_at_most_once_unless_failed initialState initialState (some "0xB") netOk []
      "0xB" (by decide)).1 (by decide) (by decide),
    (fetch_at_most_once_unless_failed stateAfterB stateAfterB none netOk
      [.getNFTsForOwner (some "0xA") netListFails, .setUserAddress "0xB",
        .getNFTsForOwner none netListFails] "0xB" (by decide)).2.1 (by decide),
    (fetch_at_most_once_unless_failed initialState initialState none netOk
      [.getNFTsForOwner (some "0xB") netListFails, .getNFTsForOwner (some "0xB") netOk,
        .getNFTsForOwner (some "0xB") netListFails] "0xB" (by decide)).2.2⟩

/-- C9 (counterexample): two queries of "0xA" in a row, the token-list request
of the first failing, request the token list of "0xA" twice. -/
theorem failed_fetch_is_fetched_again :
    fetchCount "0xA" (run initialState
      [.getNFTsForOwner (some "0xA") netListFails, .getNFTsForOwner (some "0xA") netOk]).2
      = 2 := by
  decide

/-! ## Key order -/

namespace JSObject

variable {V : Type}

theorem setProp_of_not_mem (key : String) (v : V) (ps : List (String × V))
    (h : key ∉ ps.map Prod.fst) : setProp key v ps = ps ++ [(key, v)] := by
  induction ps with
  | nil => rfl
  | cons p ps ih =>
    simp only [List.map_cons, List.mem_cons, not_or] at h
    have hp : ¬ p.1 = key := fun e => h.1 e.symm
    simp [setProp, hp, ih h.2]

theorem map_fst_setProp (key : String) (v : V) (ps : List (String × V)) :
    (setProp key v ps).map Prod.fst
      = if key ∈ ps.map Prod.fst then ps.map Prod.fst else ps.map Prod.fst ++ [key] := by
  induction ps with
  | nil => simp [setProp]
  | cons p ps ih =>
    by_cases hp : p.1 = key
    · simp [setProp, hp]
    · have hp' : ¬ key = p.1 := fun e => hp e.symm
      simp only [setProp, hp, if_false, List.map_cons, ih, List.mem_cons, hp', false_or]
      split_ifs <;> simp

theorem nodup_setProp (key : String) (v : V) (ps : List (String × V))
    (h : (ps.map Prod.fst).Nodup) : ((setProp key v ps).map Prod.fst).Nodup := by
  rw [map_fst_setProp]
  split_ifs with hk
  · exact h
  · rw [List.nodup_append]
    refine ⟨h, List.nodup_singleton _, ?_⟩
    intro a ha hb
    rw [List.mem_singleton] at hb
    exact hk (hb ▸ ha)

theorem nodup_foldl_set (source : JSObject V) (ks : List String) (target : JSObject V)
    (h : (target.props.map Prod.fst).Nodup) :
    ((ks.foldl (copyProp source) target).props.map Prod.fst).Nodup := by
  induction ks generalizing target with
  | nil => exact h
  | cons a as ih =>
    rw [List.foldl_cons]
    apply ih
    unfold copyProp
    cases source.getOwn a with
    | none => exact h
    | some v => exact nodup_setProp a v _ h

theorem lookup_of_mem_nodup (ps : List (String × V)) (h : (ps.map Prod.fst).Nodup)
    (p : String × V) (hp : p ∈ ps) : ps.lookup p.1 = some p.2 := by
  induction ps with
  | nil => cases hp
  | cons q qs ih =>
    obtain ⟨qk, qv⟩ := q
    simp only [List.map_cons, List.nodup_cons] at h
    rcases List.mem_cons.mp hp with rfl | hmem
    · simp [List.lookup]
    · have hne : ¬ p.1 = qk := by
        intro e
        exact h.1 (e ▸ List.mem_map_of_mem Prod.fst hmem)
      have hb : (p.1 == qk) = false := by simpa using hne
      simp [List.lookup, hb, ih h.2 hmem]

theorem foldl_set_append (source : JSObject V) (ps t : List (String × V))
    (hsrc : ∀ p ∈ ps, source.getOwn p.1 = some p.2)
    (hnodup : (ps.map Prod.fst).Nodup)
    (hdisj : ∀ k ∈ ps.map Prod.fst, k ∉ t.map Prod.fst) :
    (ps.map Prod.fst).foldl (copyProp source) (⟨t⟩ : JSObject V)
      = (⟨t ++ ps⟩ : JSObject V) := by
  induction ps generalizing t with
  | nil => simp
  | cons p ps ih =>
    simp only [List.map_cons, List.foldl_cons]
    have hstep : copyProp source (⟨t⟩ : JSObject V) p.1 = ⟨t ++ [p]⟩ := by
      unfold copyProp
      rw [hsrc p (List.mem_cons_self _ _)]
      simp only [set]
      rw [setProp_of_not_mem _ _ _ (hdisj p.1 (by simp))]
    rw [hstep]
    simp only [List.map_cons, List.nodup_cons] at hnodup
    rw [ih (t ++ [p]) (fun q hq => hsrc q (List.mem_cons_of_mem _ hq)) hnodup.2]
    · simp
    · intro k hk
      simp only [List.map_append, List.map_cons, List.map_nil, List.mem_append,
        List.mem_singleton, not_or]
      refine ⟨hdisj k (List.mem_cons_of_mem _ hk), ?_⟩
      intro e
      exact hnodup.1 (e ▸ hk)

theorem ownKeys_of_no_index (o : JSObject V)
    (h : ∀ k ∈ o.props.map Prod.fst, arrayIndex? k = none) :
    o.ownKeys = o.props.map Prod.fst := by
  unfold ownKeys
  have h1 : (o.props.map Prod.fst).filterMap
      (fun k => (arrayIndex? k).map (fun n => (n, k))) = [] := by
    rw [List.filterMap_eq_nil_iff]
    intro k hk
    simp [h k hk]
  have h2 : (o.props.map Prod.fst).filter (fun k => (arrayIndex? k).isNone)
      = o.props.map Prod.fst := by
    rw [List.filter_eq_self]
    intro k hk
    simp [h k hk]
  simp only [h1, h2]
  rfl

theorem ownKeys_cons_of_no_index (p : String × V) (ps : List (String × V))
    (h : ∀ k ∈ ps.map Prod.fst, arrayIndex? k = none) :
    (⟨p :: ps⟩ : JSObject V).ownKeys = p.1 :: ps.map Prod.fst := by
  unfold ownKeys
  have h1 : (ps.map Prod.fst).filterMap
      (fun k => (arrayIndex? k).map (fun n => (n, k))) = [] := by
    rw [List.filterMap_eq_nil_iff]
    intro k hk
    simp [h k hk]
  have h2 : (ps.map Prod.fst).filter (fun k => (arrayIndex? k).isNone)
      = ps.map Prod.fst := by
    rw [List.filter_eq_self]
    intro k hk
    simp [h k hk]
  cases hidx : arrayIndex? p.1 with
  | none => simp [List.filterMap_cons, List.filter_cons, hidx, h1, h2]
  | some n => simp [List.filterMap_cons, List.filter_cons, hidx, h1, h2, insertAscending]

theorem perm_insertAscending (k : Nat × String) (xs : List (Nat × String)) :
    (insertAscending k xs).Perm (k :: xs) := by
  induction xs with
  | nil => exact List.Perm.refl _
  | cons x xs ih =>
    unfold insertAscending
    split_ifs
    · exact List.Perm.refl _
    · exact (List.Perm.cons x ih).trans (List.Perm.swap k x xs)

theorem perm_foldr_insertAscending (xs : List (Nat × String)) :
    (xs.foldr insertAscending []).Perm xs := by
  induction xs with
  | nil => exact List.Perm.refl _
  | cons x xs ih =>
    exact (perm_insertAscending x _).trans (List.Perm.cons x ih)

theorem ownKeys_perm (o : JSObject V) : o.ownKeys.Perm (o.props.map Prod.fst) := by
  unfold ownKeys
  simp only
  have h1 : (((o.props.map Prod.fst).filterMap
      (fun k => (arrayIndex? k).map (fun n => (n, k)))).foldr insertAscending []).map Prod.snd
      |>.Perm ((o.props.map Prod.fst).filter (fun k => (arrayIndex? k).isSome)) := by
    refine ((perm_foldr_insertAscending _).map Prod.snd).trans ?_
    apply List.Perm.of_eq
    generalize o.props.map Prod.fst = names
    induction names with
    | nil => rfl
    | cons k ks ih =>
      cases hk : arrayIndex? k with
      | none => simp [List.filterMap_cons, List.filter_cons, hk, ih]
      | some n => simp [List.filterMap_cons, List.filter_cons, hk, ih]
  refine (List.Perm.append_right _ h1).trans ?_
  have h3 := List.filter_append_perm (fun k => (arrayIndex? k).isSome) (o.props.map Prod.fst)
  have h4 : (fun k => (arrayIndex? k).isNone)
      = (fun k => !(fun k => (arrayIndex? k).isSome) k) := by
    funext k
    cases hk : arrayIndex? k <;> simp [hk]
  rw [h4]
  exact h3

end JSObject

theorem wellFormed_store (q : JSObject QueryResult) (a : String) (data : OwnedNftsResponse)
    (tdo : List Nft) : WellFormed (store q a data tdo) := by
  unfold WellFormed store JSObject.spread
  apply JSObject.nodup_foldl_set
  simp [JSObject.set, JSObject.empty, JSObject.setProp]

theorem props_store (q : JSObject QueryResult) (a : String) (data : OwnedNftsResponse)
    (tdo : List Nft) (hwf : WellFormed q)
    (hidx : ∀ k ∈ q.ownKeys, arrayIndex? k = none) (hnew : q.getOwn a = none) :
    (store q a data tdo).props = (a, ⟨data, tdo⟩) :: q.props := by
  have hidx' : ∀ k ∈ q.props.map Prod.fst, arrayIndex? k = none := by
    intro k hk
    exact hidx k ((JSObject.mem_ownKeys q k).mpr hk)
  have ha : a ∉ q.props.map Prod.fst := by
    intro hmem
    have := (JSObject.lookup_isSome_iff a q.props).mpr hmem
    unfold JSObject.getOwn at hnew
    rw [hnew] at this
    cases this
  unfold store JSObject.spread
  rw [JSObject.ownKeys_of_no_index q hidx']
  have := JSObject.foldl_set_append q q.props [(a, ⟨data, tdo⟩)]
    (fun p hp => JSObject.lookup_of_mem_nodup q.props hwf p hp) hwf
    (by
      intro k hk
      simp only [List.map_cons, List.map_nil, List.mem_singleton]
      intro e
      exact ha (e ▸ hk))
  simp only [JSObject.set, JSObject.empty, JSObject.setProp]
  rw [this]
  rfl

theorem ownKeys_store (q : JSObject QueryResult) (a : String) (data : OwnedNftsResponse)
    (tdo : List Nft) (hwf : WellFormed q)
    (hidx : ∀ k ∈ q.ownKeys, arrayIndex? k = none) (hnew : q.getOwn a = none) :
    (store q a data tdo).ownKeys = a :: q.ownKeys := by
  have hidx' : ∀ k ∈ q.props.map Prod.fst, arrayIndex? k = none := by
    intro k hk
    exact hidx k ((JSObject.mem_ownKeys q k).mpr hk)
  have hp := props_store q a data tdo hwf hidx hnew
  have : store q a data tdo = ⟨(a, ⟨data, tdo⟩) :: q.props⟩ := by
    cases hs : store q a data tdo with
    | mk props => rw [hs] at hp; simp only at hp; rw [hp]
  rw [this, JSObject.ownKeys_cons_of_no_index _ _ hidx', JSObject.ownKeys_of_no_index q hidx']

theorem wellFormed_getNFTsForOwner (closure s : State) (address : Option String)
    (net : Net) (h : WellFormed s.queries) :
    WellFormed (getNFTsForOwner closure s address net).1.queries := by
  have hout := getNFTsForOwner_outcome closure s address net
  generalize getNFTsForOwner closure s address net = r1 at hout
  cases hout with
  | noQuery _ => exact h
  | hit _ _ => exact h
  | listFailed _ _ _ _ => exact h
  | metadataFailed _ _ _ _ _ _ => exact h
  | stored _ _ data tdo _ _ => exact wellFormed_store _ _ data tdo

theorem wellFormed_run (actions : List Action) (s : State) (h : WellFormed s.queries) :
    WellFormed (run s actions).1.queries := by
  induction actions generalizing s with
  | nil => exact h
  | cons act rest ih =>
    simp only [run]
    apply ih
    cases act with
    | setUserAddress value => exact h
    | getNFTsForOwner address net => exact wellFormed_getNFTsForOwner s s address net h
    | connectWallet address net =>
      simp only [step]
      split_ifs
      · exact h
      · exact wellFormed_getNFTsForOwner _ _ _ net h

theorem wellFormed_of_reachable (s : State) (h : Reachable s) : WellFormed s.queries := by
  obtain ⟨actions, rfl⟩ := h
  apply wellFormed_run
  simp [WellFormed, initialState, JSObject.empty]

theorem not_mem_ownKeys_of_getOwn_none (q : JSObject QueryResult) (a : String)
    (h : q.getOwn a = none) : a ∉ q.ownKeys := by
  intro hmem
  have := (JSObject.lookup_isSome_iff a q.props).mpr ((JSObject.mem_ownKeys q a).mp hmem)
  unfold JSObject.getOwn at h
  rw [h] at this
  cases this

/-- C8 (as amended): when no key of a cache is an array index, storing a result
under an address not yet cached puts that address in front of the list of known
addresses and keeps the others in their order; in every reachable state,
whoever made the calls, the list has no duplicates; and, while no cached
address is an array index, a call of `getNFTsForOwner` made from the current
render (the fetch button or a link of the recent queries) either leaves the
list as it was or puts the address it fetched, new to the list, in front of it.
The call made by the wallet effect is left out of the last part. -/
theorem recent_queries_most_recent_first (q : JSObject QueryResult) (a : String)
    (data : OwnedNftsResponse) (tdo : List Nft) (s : State) (address : Option String)
    (net : Net) :
    (WellFormed q → (∀ k ∈ q.ownKeys, arrayIndex? k = none) → q.getOwn a = none →
        (store q a data tdo).ownKeys = a :: q.ownKeys)
      ∧ (Reachable s →
          (recentQueries s).Nodup
            ∧ ((∀ k ∈ recentQueries s, arrayIndex? k = none) →
                recentQueries (getNFTsForOwner s s address net).1 = recentQueries s
                  ∨ (effectiveAddress address s.userAddress ∉ recentQueries s
                      ∧ recentQueries (getNFTsForOwner s s address net).1
                        = effectiveAddress address s.userAddress :: recentQueries s))) := by
  refine ⟨ownKeys_store q a data tdo, ?_⟩
  intro hs
  have hwf := wellFormed_of_reachable s hs
  refine ⟨(JSObject.ownKeys_perm s.queries).nodup_iff.mpr hwf, ?_⟩
  intro hidx
  have hout := getNFTsForOwner_outcome s s address net
  generalize getNFTsForOwner s s address net = r1 at hout
  cases hout with
  | noQuery _ => exact Or.inl rfl
  | hit _ _ => exact Or.inl rfl
  | listFailed _ _ _ _ => exact Or.inl rfl
  | metadataFailed _ _ _ _ _ _ => exact Or.inl rfl
  | stored _ ht data2 tdo2 _ _ =>
    have hown := getOwn_eq_none_of_not_truthy _ _ ht
    exact Or.inr ⟨not_mem_ownKeys_of_getOwn_none _ _ hown,
      ownKeys_store s.queries _ data2 tdo2 hwf hidx hown⟩

/-- C8 (as amended) at the one-entry cache left by a successful query of "0xB",
and at the state reached when the wallet effect has fetched a cached address
again. -/
theorem recent_queries_most_recent_first_witness :
    (store stateAfterB.queries "0xA" ⟨[nftA, nftB]⟩ [metaA, metaB]).ownKeys
        = "0xA" :: stateAfterB.queries.ownKeys
      ∧ (recentQueries (run initialState walletAfterUserQuery).1).Nodup
      ∧ (recentQueries (getNFTsForOwner stateAfterB stateAfterB (some "0xA") netOk).1
            = recentQueries stateAfterB
          ∨ (effectiveAddress (some "0xA") stateAfterB.userAddress ∉ recentQueries stateAfterB
              ∧ recentQueries (getNFTsForOwner stateAfterB stateAfterB (some "0xA") netOk).1
                = effectiveAddress (some "0xA") stateAfterB.userAddress
                    :: recentQueries stateAfterB)) :=
  have h := recent_queries_most_recent_first stateAfterB.queries "0xA" ⟨[nftA, nftB]⟩
    [metaA, metaB] stateAfterB (some "0xA") netOk
  have hr : Reachable stateAfterB := ⟨[.getNFTsForOwner (some "0xB") netOk], rfl⟩
  have h2 := recent_queries_most_recent_first stateAfterB.queries "0xA" ⟨[nftA, nftB]⟩
    [metaA, metaB] (run initialState walletAfterUserQuery).1 none netOk
  ⟨h.1 (by unfold WellFormed; decide) (by decide) (by decide),
    (h2.2 ⟨walletAfterUserQuery, rfl⟩).1, (h.2 hr).2 (by decide)⟩

/-- C8 (counterexample): the cache whose only key is "7" has no entry for
"0xA"; after the store of "0xA" the list of known addresses is "7" followed by
"0xA", not "0xA" followed by "7".  The same list is reached from the initial
state by a successful query of "7" followed by a successful query of "0xA". -/
theorem array_index_key_stays_in_front :
    WellFormed cacheWithSeven
      ∧ cacheWithSeven.getOwn "0xA" = none
      ∧ cacheWithSeven.ownKeys = ["7"]
      ∧ (store cacheWithSeven "0xA" ⟨[nftA, nftB]⟩ [metaA, metaB]).ownKeys = ["7", "0xA"]
      ∧ (store cacheWithSeven "0xA" ⟨[nftA, nftB]⟩ [metaA, metaB]).ownKeys
          ≠ "0xA" :: cacheWithSeven.ownKeys
      ∧ recentQueries (run initialState
          [.getNFTsForOwner (some "7") netOk, .getNFTsForOwner (some "0xA") netOk]).1
          = ["7", "0xA"] :=
  ⟨by unfold WellFormed; decide, by decide, by decide, by decide, by decide, by decide⟩

end NftIndexer
